import Mathlib

/-!
Verification of the suffix-classification engine and the whois domain harvester
of the rust-url-parser repository.

The development shallowly embeds the Rust code of `src/lib.rs`:

* the plain data structures `TldComponents`, `UrlComponents`, `UrlAnalysis`
  (lines 24-50 of `src/lib.rs`);
* the classifier wrapper `TldAnalyzer::extract` (lines 106-114), whose
  underlying engine (the external `tldextract` crate) is modelled from the
  spec as a longest-match classifier over an explicit public-suffix table;
* the harvester `WhoisFormatter::format` (lines 228-309), parameterised by
  the public-suffix table and by an oracle standing for the external
  `url` crate's `Url::parse` (only the optional host of a successfully
  parsed URL is ever consumed by the harvester).

Rust's `String` operations that do not reduce inside the Lean kernel
(`contains`, `starts_with`, string ordering, splitting) are embedded as
structurally recursive functions over the character list of the string and
are related to Mathlib's `String` order where the claims require it.
-/

namespace Whois

/-- Mirror of the Rust struct `TldComponents` (src/lib.rs lines 45-50). -/
structure TldComponents where
  domain : Option String
  subdomain : Option String
  suffix : Option String

/-- Mirror of the Rust struct `UrlComponents` (src/lib.rs lines 31-43).
`port` is embedded as `Option Nat`. -/
structure UrlComponents where
  scheme : String
  username : String
  password : Option String
  host : Option String
  port : Option Nat
  path : String
  query : Option String
  fragment : Option String
  query_params : List (String × String)
  path_segments : List String

/-- Mirror of the Rust struct `UrlAnalysis` (src/lib.rs lines 24-29). -/
structure UrlAnalysis where
  original_url : String
  url_components : UrlComponents
  tld_components : TldComponents

/-- Modelled from the spec: the process-wide read-only public-suffix rule
table (spec section 3, `PublicSuffixTable`), mapping suffix label sequences
to is-a-valid-suffix decisions.  An entry is the label sequence of one
registered suffix, e.g. `["co", "uk"]`. -/
abbrev PublicSuffixTable := List (List String)

/-- Modelled from the spec: the external `url` crate's `Url::parse` as used
by the harvester (src/lib.rs line 251).  The harvester only consumes
`host_str()` of a successfully parsed URL, so a parse outcome is embedded as
`none` (the value is not a valid standalone URL) or `some h` where `h` is
the optional host of the parsed URL. -/
abbrev UrlParseOracle := String → Option (Option String)

/-- Rust `value.contains('.')`, embedded over the character list. -/
def containsChar (s : String) (c : Char) : Bool :=
  s.data.contains c

/-- Rust `value.starts_with('%')`, embedded over the character list. -/
def startsWithChar (s : String) (c : Char) : Bool :=
  match s.data with
  | [] => false
  | c0 :: _ => c0 == c

/-- Auxiliary splitter accumulating the current label in reverse. -/
def splitDotsAux : List Char → List Char → List String
  | [], acc => [String.mk acc.reverse]
  | c :: cs, acc =>
    if c = '.' then String.mk acc.reverse :: splitDotsAux cs []
    else splitDotsAux cs (c :: acc)

/-- Splitting a hostname on `.` into its ordered labels (spec section 4.1:
split `host` on `.` into ordered labels, left = most specific). -/
def splitDots (host : String) : List String :=
  splitDotsAux host.data []

/-- Rust `Vec::join(sep)`: interleave `sep` between the elements, with no
trailing separator. -/
def joinWith (sep : String) : List String → String
  | [] => ""
  | [x] => x
  | x :: xs => x ++ sep ++ joinWith sep xs

/-- Length (in labels) of the longest trailing label sequence of `labels`
that is an entry of the table, trying candidate lengths from `fuel` down to
`1` (so the longest match wins, spec section 4.1 tie-break rule). -/
def findSuffixLen (table : PublicSuffixTable) (labels : List String) : Nat → Option Nat
  | 0 => none
  | k + 1 =>
    if labels.drop (labels.length - (k + 1)) ∈ table then some (k + 1)
    else findSuffixLen table labels k

/-- Modelled from the spec: the external `tldextract` crate engine consumed
by `TldAnalyzer` (src/lib.rs line 107), per spec section 4.1.  Split the
host on `.`; find the longest trailing label sequence registered in the
table.  No match, or a match consuming the whole host (bare suffix), yields
the all-absent classification; otherwise the label immediately left of the
suffix is the domain and everything further left, dot-joined, is the
subdomain (absent if no label remains). -/
def rawExtract (table : PublicSuffixTable) (host : String) : TldComponents :=
  let labels := splitDots host
  match findSuffixLen table labels labels.length with
  | none => ⟨none, none, none⟩
  | some k =>
    if k < labels.length then
      let rest := labels.take (labels.length - k)
      { domain := rest.getLast?
        subdomain :=
          if rest.dropLast = [] then none
          else some (joinWith "." rest.dropLast)
        suffix := some (joinWith "." (labels.drop (labels.length - k))) }
    else ⟨none, none, none⟩

/-- Mirror of the Rust struct `TldAnalyzer` (src/lib.rs lines 95-104); the
field is the public-suffix table consulted by the modelled engine (the Rust
field is the `TldExtractor` built from `TldOption::default()`). -/
structure TldAnalyzer where
  table : PublicSuffixTable

/-- Mirror of `TldAnalyzer::new` (src/lib.rs lines 100-104). -/
def TldAnalyzer.new (table : PublicSuffixTable) : TldAnalyzer :=
  ⟨table⟩

/-- Mirror of `TldAnalyzer::extract` (src/lib.rs lines 106-114): run the
engine and normalize empty-string fields to `None` via `filter`.  The `?`
propagation of the Rust code never fires because the modelled engine is
total (spec section 7: the classifier has no error outcomes), so the result
is always `Except.ok`. -/
def TldAnalyzer.extract (t : TldAnalyzer) (host : String) : Except String TldComponents :=
  let extracted := rawExtract t.table host
  Except.ok
    { domain := extracted.domain.filter (fun s => !s.isEmpty)
      subdomain := extracted.subdomain.filter (fun s => !s.isEmpty)
      suffix := extracted.suffix.filter (fun s => !s.isEmpty) }

/-- The classification delivered by `TldAnalyzer::extract` (it is always
`Except.ok`); convenient spec-level name for stating the claims. -/
def classify (table : PublicSuffixTable) (host : String) : TldComponents :=
  match (TldAnalyzer.new table).extract host with
  | Except.ok tc => tc
  | Except.error _ => ⟨none, none, none⟩

theorem extract_eq_ok (table : PublicSuffixTable) (host : String) :
    (TldAnalyzer.new table).extract host = Except.ok (classify table host) :=
  rfl

/-- Rust `HashSet::insert` (set semantics, exact string equality), embedded
on a duplicate-free accumulator list. -/
def insertDomain (domains : List String) (x : String) : List String :=
  if x ∈ domains then domains else domains ++ [x]

/-- Primary-host step of `WhoisFormatter::format` (src/lib.rs lines
233-246). -/
def harvestHost (incl : Bool) (a : UrlAnalysis) (domains : List String) : List String :=
  match a.url_components.host with
  | none => domains
  | some host =>
    if incl then insertDomain domains host
    else
      match a.tld_components.domain, a.tld_components.suffix with
      | some domain, some suffix => insertDomain domains (domain ++ "." ++ suffix)
      | _, _ => insertDomain domains host

/-- Query-parameter-value step of `WhoisFormatter::format` (src/lib.rs
lines 249-286): first try to parse the value as a full URL; else, if it
contains a `.` and does not start with `%`, classify it as a bare hostname
candidate. -/
def harvestQueryValue (table : PublicSuffixTable) (parse : UrlParseOracle) (incl : Bool)
    (domains : List String) (value : String) : List String :=
  match parse value with
  | some embeddedHost? =>
    match embeddedHost? with
    | some embedded_host =>
      if incl then insertDomain domains embedded_host
      else
        match (TldAnalyzer.new table).extract embedded_host with
        | Except.ok tld =>
          match tld.domain, tld.suffix with
          | some domain, some suffix => insertDomain domains (domain ++ "." ++ suffix)
          | _, _ => domains
        | Except.error _ => insertDomain domains embedded_host
    | none => domains
  | none =>
    if containsChar value '.' && !startsWithChar value '%' then
      match (TldAnalyzer.new table).extract value with
      | Except.ok tld =>
        if incl then
          match tld.subdomain, tld.domain, tld.suffix with
          | some subdomain, some domain, some suffix =>
            insertDomain domains (subdomain ++ "." ++ domain ++ "." ++ suffix)
          | none, some domain, some suffix =>
            insertDomain domains (domain ++ "." ++ suffix)
          | _, _, _ => domains
        else
          match tld.domain, tld.suffix with
          | some domain, some suffix => insertDomain domains (domain ++ "." ++ suffix)
          | _, _ => domains
      | Except.error _ => domains
    else domains

/-- Path-segment step of `WhoisFormatter::format` (src/lib.rs lines
289-303). -/
def harvestSegment (table : PublicSuffixTable) (incl : Bool)
    (domains : List String) (segment : String) : List String :=
  if containsChar segment '.' && !startsWithChar segment '%' then
    if incl then insertDomain domains segment
    else
      match (TldAnalyzer.new table).extract segment with
      | Except.ok tld =>
        match tld.domain, tld.suffix with
        | some domain, some suffix => insertDomain domains (domain ++ "." ++ suffix)
        | _, _ => domains
      | Except.error _ => domains
  else domains

/-- Body of the per-analysis loop of `WhoisFormatter::format` (src/lib.rs
lines 231-304): primary host, then every query-parameter value (only the
value of each pair is consumed), then every path segment. -/
def harvestAnalysis (table : PublicSuffixTable) (parse : UrlParseOracle) (incl : Bool)
    (domains : List String) (a : UrlAnalysis) : List String :=
  let d1 := harvestHost incl a domains
  let d2 := a.url_components.query_params.foldl
    (fun d kv => harvestQueryValue table parse incl d kv.2) d1
  a.url_components.path_segments.foldl (fun d s => harvestSegment table incl d s) d2

/-- The accumulated domain set of `WhoisFormatter::format` over a batch,
before sorting (src/lib.rs lines 229-304). -/
def collectDomains (table : PublicSuffixTable) (parse : UrlParseOracle) (incl : Bool)
    (analyses : List UrlAnalysis) : List String :=
  analyses.foldl (harvestAnalysis table parse incl) []

/-- Byte/codepoint-lexicographic comparison of character lists (on UTF-8
encoded strings byte order and codepoint order coincide). -/
def charListLe : List Char → List Char → Bool
  | [], _ => true
  | _ :: _, [] => false
  | a :: as, b :: bs => if a < b then true else if b < a then false else charListLe as bs

/-- Rust's `String` ordering used by `Vec::sort` (lexicographic byte
order), embedded over character lists. -/
def strLe (a b : String) : Bool :=
  charListLe a.data b.data

/-- Rust `sorted_domains.sort()` (src/lib.rs line 307): produce the
ascending arrangement of the collected domains. -/
def sortDomains (l : List String) : List String :=
  List.insertionSort (fun a b => strLe a b = true) l

/-- Mirror of the Rust error type `std::fmt::Error` declared as the
formatter's error type (src/lib.rs line 226); it is never produced. -/
abbrev FmtError := Unit

/-- Mirror of the Rust struct `WhoisFormatter` (src/lib.rs lines 202-204). -/
structure WhoisFormatter where
  include_subdomains : Bool

/-- Mirror of `WhoisFormatter::new` (src/lib.rs lines 207-211). -/
def WhoisFormatter.new : WhoisFormatter :=
  ⟨false⟩

/-- Mirror of `WhoisFormatter::with_subdomains` (src/lib.rs lines 213-216). -/
def WhoisFormatter.with_subdomains (_f : WhoisFormatter) : WhoisFormatter :=
  ⟨true⟩

/-- Mirror of `WhoisFormatter::format` on a batch (src/lib.rs lines
228-309): harvest every analysis into one set, sort ascending, join with
newlines, and return `Ok`. -/
def WhoisFormatter.format (f : WhoisFormatter) (table : PublicSuffixTable)
    (parse : UrlParseOracle) (analyses : List UrlAnalysis) : Except FmtError String :=
  let sorted_domains := sortDomains (collectDomains table parse f.include_subdomains analyses)
  Except.ok (joinWith "\n" sorted_domains)

/-! Bridge between the executable comparison `strLe` and Mathlib's
lexicographic order on `String`. -/

theorem charListLe_iff : ∀ as bs : List Char, charListLe as bs = true ↔ ¬ bs < as
  | [], bs => by
    simp only [charListLe]
    exact iff_of_true trivial (List.Lex.not_nil_right _ bs)
  | a :: as, [] => by
    simp only [charListLe]
    exact iff_of_false (by simp) (not_not_intro (List.nil_lt_cons a as))
  | a :: as, b :: bs => by
    simp only [charListLe]
    by_cases hab : a < b
    · simp only [if_pos hab]
      refine iff_of_true trivial ?_
      intro hc
      cases hc with
      | rel h' => exact lt_asymm hab h'
      | cons h' => exact lt_irrefl a hab
    · simp only [if_neg hab]
      by_cases hba : b < a
      · simp only [if_pos hba]
        exact iff_of_false (by simp) (not_not_intro (List.Lex.rel hba))
      · simp only [if_neg hba]
        have heq : a = b := le_antisymm (le_of_not_lt hba) (le_of_not_lt hab)
        subst heq
        rw [charListLe_iff as bs]
        constructor
        · intro h hc
          cases hc with
          | rel h' => exact lt_irrefl a h'
          | cons h' => exact h h'
        · intro h hc
          exact h (List.Lex.cons hc)

theorem strLe_iff (a b : String) : strLe a b = true ↔ a ≤ b := by
  rw [String.le_iff_toList_le, ← not_lt]
  exact charListLe_iff a.data b.data

theorem strLe_total (a b : String) : strLe a b = true ∨ strLe b a = true := by
  rw [strLe_iff, strLe_iff]
  exact le_total a b

theorem strLe_trans {a b c : String} (h1 : strLe a b = true) (h2 : strLe b c = true) :
    strLe a c = true := by
  rw [strLe_iff] at h1 h2 ⊢
  exact le_trans h1 h2

theorem sortDomains_sorted (l : List String) :
    List.Sorted (· ≤ ·) (sortDomains l) := by
  haveI ht : IsTotal String (fun a b => strLe a b = true) := ⟨fun a b => strLe_total a b⟩
  haveI htr : IsTrans String (fun a b => strLe a b = true) :=
    ⟨fun _ _ _ h1 h2 => strLe_trans h1 h2⟩
  have hs : List.Sorted (fun a b => strLe a b = true) (sortDomains l) :=
    List.sorted_insertionSort (fun a b => strLe a b = true) l
  exact hs.imp (fun h => (strLe_iff _ _).1 h)

theorem sortDomains_perm (l : List String) : (sortDomains l).Perm l :=
  List.perm_insertionSort _ l

/-! Insertion machinery: every string the harvester inserts is computed
purely from the analysis, never from the accumulator, so each harvesting
step is `insertAll` of a contribution list. -/

/-- Fold `insertDomain` over a list of candidate strings. -/
def insertAll (domains : List String) (l : List String) : List String :=
  l.foldl insertDomain domains

theorem insertAll_nil (d : List String) : insertAll d [] = d :=
  rfl

theorem insertAll_cons (d : List String) (x : String) (l : List String) :
    insertAll d (x :: l) = insertAll (insertDomain d x) l :=
  rfl

theorem insertAll_singleton (d : List String) (x : String) :
    insertAll d [x] = insertDomain d x :=
  rfl

theorem insertAll_append (d : List String) (l1 l2 : List String) :
    insertAll d (l1 ++ l2) = insertAll (insertAll d l1) l2 :=
  List.foldl_append _ _ _ _

theorem mem_insertDomain (d : List String) (x y : String) :
    y ∈ insertDomain d x ↔ y ∈ d ∨ y = x := by
  unfold insertDomain
  by_cases hx : x ∈ d
  · simp only [if_pos hx]
    constructor
    · exact Or.inl
    · rintro (h | rfl)
      · exact h
      · exact hx
  · simp [if_neg hx]

theorem mem_insertAll (l : List String) : ∀ (d : List String) (y : String),
    y ∈ insertAll d l ↔ y ∈ d ∨ y ∈ l := by
  induction l with
  | nil => intro d y; simp [insertAll_nil]
  | cons x l ih =>
    intro d y
    rw [insertAll_cons, ih, mem_insertDomain]
    constructor
    · rintro ((h | rfl) | h)
      · exact Or.inl h
      · exact Or.inr (List.mem_cons_self _ _)
      · exact Or.inr (List.mem_cons_of_mem _ h)
    · rintro (h | h)
      · exact Or.inl (Or.inl h)
      · rcases List.mem_cons.1 h with rfl | h'
        · exact Or.inl (Or.inr rfl)
        · exact Or.inr h'

theorem insertAll_eq_self (l : List String) : ∀ (d : List String),
    (∀ x ∈ l, x ∈ d) → insertAll d l = d := by
  induction l with
  | nil => intro d _; rfl
  | cons x l ih =>
    intro d h
    rw [insertAll_cons]
    have hx : x ∈ d := h x (List.mem_cons_self _ _)
    have hd : insertDomain d x = d := by simp [insertDomain, hx]
    rw [hd]
    exact ih d (fun y hy => h y (List.mem_cons_of_mem _ hy))

theorem nodup_insertDomain (d : List String) (x : String) (hd : d.Nodup) :
    (insertDomain d x).Nodup := by
  unfold insertDomain
  by_cases hx : x ∈ d
  · simpa [if_pos hx] using hd
  · simp [if_neg hx, List.nodup_append, hd, List.disjoint_singleton, hx]

theorem nodup_insertAll (l : List String) : ∀ (d : List String),
    d.Nodup → (insertAll d l).Nodup := by
  induction l with
  | nil => intro d hd; exact hd
  | cons x l ih =>
    intro d hd
    rw [insertAll_cons]
    exact ih _ (nodup_insertDomain d x hd)

/-! Contribution lists: the strings each harvesting step inserts, computed
from the fragment alone. -/

/-- Strings the primary-host step inserts. -/
def hostContrib (incl : Bool) (a : UrlAnalysis) : List String :=
  match a.url_components.host with
  | none => []
  | some host =>
    if incl then [host]
    else
      match a.tld_components.domain, a.tld_components.suffix with
      | some domain, some suffix => [domain ++ "." ++ suffix]
      | _, _ => [host]

/-- Strings the query-parameter-value step inserts. -/
def queryValueContrib (table : PublicSuffixTable) (parse : UrlParseOracle) (incl : Bool)
    (value : String) : List String :=
  match parse value with
  | some embeddedHost? =>
    match embeddedHost? with
    | some embedded_host =>
      if incl then [embedded_host]
      else
        match (TldAnalyzer.new table).extract embedded_host with
        | Except.ok tld =>
          match tld.domain, tld.suffix with
          | some domain, some suffix => [domain ++ "." ++ suffix]
          | _, _ => []
        | Except.error _ => [embedded_host]
    | none => []
  | none =>
    if containsChar value '.' && !startsWithChar value '%' then
      match (TldAnalyzer.new table).extract value with
      | Except.ok tld =>
        if incl then
          match tld.subdomain, tld.domain, tld.suffix with
          | some subdomain, some domain, some suffix =>
            [subdomain ++ "." ++ domain ++ "." ++ suffix]
          | none, some domain, some suffix => [domain ++ "." ++ suffix]
          | _, _, _ => []
        else
          match tld.domain, tld.suffix with
          | some domain, some suffix => [domain ++ "." ++ suffix]
          | _, _ => []
      | Except.error _ => []
    else []

/-- Strings the path-segment step inserts. -/
def segmentContrib (table : PublicSuffixTable) (incl : Bool) (segment : String) : List String :=
  if containsChar segment '.' && !startsWithChar segment '%' then
    if incl then [segment]
    else
      match (TldAnalyzer.new table).extract segment with
      | Except.ok tld =>
        match tld.domain, tld.suffix with
        | some domain, some suffix => [domain ++ "." ++ suffix]
        | _, _ => []
      | Except.error _ => []
  else []

/-- Concatenated query-value contributions of one analysis. -/
def queryContribs (table : PublicSuffixTable) (parse : UrlParseOracle) (incl : Bool)
    (ps : List (String × String)) : List String :=
  ps.foldr (fun kv acc => queryValueContrib table parse incl kv.2 ++ acc) []

/-- Concatenated path-segment contributions of one analysis. -/
def segmentContribs (table : PublicSuffixTable) (incl : Bool)
    (segs : List String) : List String :=
  segs.foldr (fun s acc => segmentContrib table incl s ++ acc) []

/-- All strings one analysis contributes, in harvesting order. -/
def analysisContrib (table : PublicSuffixTable) (parse : UrlParseOracle) (incl : Bool)
    (a : UrlAnalysis) : List String :=
  hostContrib incl a
    ++ queryContribs table parse incl a.url_components.query_params
    ++ segmentContribs table incl a.url_components.path_segments

/-- All strings a batch contributes, in harvesting order. -/
def batchContribs (table : PublicSuffixTable) (parse : UrlParseOracle) (incl : Bool)
    (analyses : List UrlAnalysis) : List String :=
  analyses.foldr (fun a acc => analysisContrib table parse incl a ++ acc) []

theorem harvestHost_eq (incl : Bool) (a : UrlAnalysis) (d : List String) :
    harvestHost incl a d = insertAll d (hostContrib incl a) := by
  unfold harvestHost hostContrib
  cases a.url_components.host with
  | none => rfl
  | some host =>
    cases incl with
    | true => rfl
    | false =>
      cases a.tld_components.domain <;> cases a.tld_components.suffix <;> rfl

theorem harvestQueryValue_eq (table : PublicSuffixTable) (parse : UrlParseOracle)
    (incl : Bool) (d : List String) (v : String) :
    harvestQueryValue table parse incl d v = insertAll d (queryValueContrib table parse incl v) := by
  unfold harvestQueryValue queryValueContrib
  cases parse v with
  | some eh =>
    cases eh with
    | none => rfl
    | some h =>
      cases incl with
      | true => rfl
      | false =>
        dsimp only
        rw [extract_eq_ok table h]
        obtain ⟨dom, sub, suf⟩ := classify table h
        cases dom <;> cases suf <;> rfl
  | none =>
    dsimp only
    by_cases hcond : (containsChar v '.' && !startsWithChar v '%') = true
    · rw [if_pos hcond, if_pos hcond, extract_eq_ok table v]
      obtain ⟨dom, sub, suf⟩ := classify table v
      cases incl with
      | true => cases sub <;> cases dom <;> cases suf <;> rfl
      | false => cases dom <;> cases suf <;> rfl
    · rw [if_neg hcond, if_neg hcond]
      rfl

theorem harvestSegment_eq (table : PublicSuffixTable) (incl : Bool)
    (d : List String) (seg : String) :
    harvestSegment table incl d seg = insertAll d (segmentContrib table incl seg) := by
  unfold harvestSegment segmentContrib
  by_cases hcond : (containsChar seg '.' && !startsWithChar seg '%') = true
  · rw [if_pos hcond, if_pos hcond]
    cases incl with
    | true => rfl
    | false =>
      rw [extract_eq_ok table seg]
      obtain ⟨dom, sub, suf⟩ := classify table seg
      cases dom <;> cases suf <;> rfl
  · rw [if_neg hcond, if_neg hcond]
    rfl

theorem foldl_harvestQueryValue (table : PublicSuffixTable) (parse : UrlParseOracle)
    (incl : Bool) : ∀ (ps : List (String × String)) (d : List String),
    ps.foldl (fun d kv => harvestQueryValue table parse incl d kv.2) d
      = insertAll d (queryContribs table parse incl ps) := by
  intro ps
  induction ps with
  | nil => intro d; rfl
  | cons kv ps ih =>
    intro d
    show List.foldl _ (harvestQueryValue table parse incl d kv.2) ps = _
    rw [ih, harvestQueryValue_eq]
    show _ = insertAll d (queryValueContrib table parse incl kv.2 ++ queryContribs table parse incl ps)
    rw [insertAll_append]

theorem foldl_harvestSegment (table : PublicSuffixTable) (incl : Bool) :
    ∀ (segs : List String) (d : List String),
    segs.foldl (fun d s => harvestSegment table incl d s) d
      = insertAll d (segmentContribs table incl segs) := by
  intro segs
  induction segs with
  | nil => intro d; rfl
  | cons s segs ih =>
    intro d
    show List.foldl _ (harvestSegment table incl d s) segs = _
    rw [ih, harvestSegment_eq]
    show _ = insertAll d (segmentContrib table incl s ++ segmentContribs table incl segs)
    rw [insertAll_append]

theorem harvestAnalysis_eq (table : PublicSuffixTable) (parse : UrlParseOracle)
    (incl : Bool) (d : List String) (a : UrlAnalysis) :
    harvestAnalysis table parse incl d a = insertAll d (analysisContrib table parse incl a) := by
  unfold harvestAnalysis analysisContrib
  rw [foldl_harvestSegment, foldl_harvestQueryValue, harvestHost_eq,
    insertAll_append, insertAll_append]

theorem foldl_harvestAnalysis (table : PublicSuffixTable) (parse : UrlParseOracle)
    (incl : Bool) : ∀ (analyses : List UrlAnalysis) (d : List String),
    analyses.foldl (harvestAnalysis table parse incl) d
      = insertAll d (batchContribs table parse incl analyses) := by
  intro analyses
  induction analyses with
  | nil => intro d; rfl
  | cons a analyses ih =>
    intro d
    show List.foldl _ (harvestAnalysis table parse incl d a) analyses = _
    rw [ih, harvestAnalysis_eq]
    show _ = insertAll d (analysisContrib table parse incl a ++ batchContribs table parse incl analyses)
    rw [insertAll_append]

theorem collectDomains_eq (table : PublicSuffixTable) (parse : UrlParseOracle)
    (incl : Bool) (analyses : List UrlAnalysis) :
    collectDomains table parse incl analyses
      = insertAll [] (batchContribs table parse incl analyses) :=
  foldl_harvestAnalysis table parse incl analyses []

theorem mem_collectDomains (table : PublicSuffixTable) (parse : UrlParseOracle)
    (incl : Bool) (analyses : List UrlAnalysis) (x : String) :
    x ∈ collectDomains table parse incl analyses
      ↔ x ∈ batchContribs table parse incl analyses := by
  rw [collectDomains_eq, mem_insertAll]
  simp

theorem batchContribs_append (table : PublicSuffixTable) (parse : UrlParseOracle)
    (incl : Bool) : ∀ (pre post : List UrlAnalysis),
    batchContribs table parse incl (pre ++ post)
      = batchContribs table parse incl pre ++ batchContribs table parse incl post := by
  intro pre post
  induction pre with
  | nil => rfl
  | cons a pre ih =>
    show analysisContrib table parse incl a ++ batchContribs table parse incl (pre ++ post) = _
    rw [ih]
    show _ = (analysisContrib table parse incl a ++ batchContribs table parse incl pre) ++ _
    rw [List.append_assoc]

theorem nodup_collectDomains (table : PublicSuffixTable) (parse : UrlParseOracle)
    (incl : Bool) (analyses : List UrlAnalysis) :
    (collectDomains table parse incl analyses).Nodup := by
  rw [collectDomains_eq]
  exact nodup_insertAll _ [] List.nodup_nil

/-! Structural facts about the modelled classifier, used for the
no-recognized-suffix and invariant claims. -/

theorem classify_def (table : PublicSuffixTable) (host : String) :
    classify table host =
      { domain := (rawExtract table host).domain.filter (fun s => !s.isEmpty)
        subdomain := (rawExtract table host).subdomain.filter (fun s => !s.isEmpty)
        suffix := (rawExtract table host).suffix.filter (fun s => !s.isEmpty) } :=
  rfl

theorem findSuffixLen_eq_none (table : PublicSuffixTable) (labels : List String)
    (H : ∀ i, i < labels.length → labels.drop i ∉ table) :
    ∀ m, m ≤ labels.length → findSuffixLen table labels m = none := by
  intro m
  induction m with
  | zero => intro _; rfl
  | succ k ih =>
    intro hm
    unfold findSuffixLen
    have hlt : labels.length - (k + 1) < labels.length := by omega
    rw [if_neg (H _ hlt)]
    exact ih (by omega)

theorem findSuffixLen_mem (table : PublicSuffixTable) (labels : List String) :
    ∀ m k, findSuffixLen table labels m = some k →
      labels.drop (labels.length - k) ∈ table := by
  intro m
  induction m with
  | zero =>
    intro k h
    exact absurd h (by simp [findSuffixLen])
  | succ n ih =>
    intro k h
    unfold findSuffixLen at h
    by_cases hc : labels.drop (labels.length - (n + 1)) ∈ table
    · rw [if_pos hc] at h
      obtain rfl : n + 1 = k := Option.some.inj h
      exact hc
    · rw [if_neg hc] at h
      exact ih k h

theorem rawExtract_of_fsl_none (table : PublicSuffixTable) (host : String)
    (hfs : findSuffixLen table (splitDots host) (splitDots host).length = none) :
    rawExtract table host = ⟨none, none, none⟩ := by
  unfold rawExtract
  dsimp only
  rw [hfs]

theorem rawExtract_of_fsl_whole (table : PublicSuffixTable) (host : String) (k : Nat)
    (hfs : findSuffixLen table (splitDots host) (splitDots host).length = some k)
    (hk : ¬ k < (splitDots host).length) :
    rawExtract table host = ⟨none, none, none⟩ := by
  unfold rawExtract
  dsimp only
  rw [hfs]
  dsimp only
  rw [if_neg hk]

theorem rawExtract_suffix_of_fsl (table : PublicSuffixTable) (host : String) (k : Nat)
    (hfs : findSuffixLen table (splitDots host) (splitDots host).length = some k)
    (hk : k < (splitDots host).length) :
    (rawExtract table host).suffix
      = some (joinWith "." ((splitDots host).drop ((splitDots host).length - k))) := by
  unfold rawExtract
  dsimp only
  rw [hfs]
  dsimp only
  rw [if_pos hk]

theorem joinWith_ne_empty (l : List String) (hne : l ≠ [])
    (hs : ∀ s ∈ l, s ≠ "") : joinWith "." l ≠ "" := by
  cases l with
  | nil => exact absurd rfl hne
  | cons x xs =>
    cases xs with
    | nil => exact hs x (List.mem_cons_self _ _)
    | cons y ys =>
      show x ++ "." ++ joinWith "." (y :: ys) ≠ ""
      intro hcontra
      have hlen := congrArg String.length hcontra
      rw [String.length_append, String.length_append] at hlen
      have h1 : String.length "." = 1 := rfl
      have h2 : String.length "" = 0 := rfl
      rw [h1, h2] at hlen
      omega

theorem filter_nonempty_ne_some_empty (o : Option String) :
    o.filter (fun s => !s.isEmpty) ≠ some "" := by
  cases o with
  | none =>
    intro hcontra
    exact absurd hcontra (by simp [Option.filter])
  | some a =>
    intro hcontra
    simp only [Option.filter] at hcontra
    by_cases ha : (!a.isEmpty) = true
    · rw [if_pos ha] at hcontra
      obtain rfl : a = "" := Option.some.inj hcontra
      exact absurd ha (by decide)
    · rw [if_neg ha] at hcontra
      exact Option.noConfusion hcontra

/-- Well-formedness of a public-suffix table: every entry is a nonempty
sequence of nonempty labels (as in the real public-suffix list loaded by
`TldOption::default()`). -/
abbrev WFTable (table : PublicSuffixTable) : Prop :=
  ∀ e ∈ table, e ≠ [] ∧ ∀ l ∈ e, l ≠ ""

/-! Concrete fixtures for witnesses and counterexamples. -/

/-- Tiny public-suffix table registering only `com`. -/
def tableCom : PublicSuffixTable := [["com"]]

/-- Parse oracle on which no value is a valid standalone URL. -/
def parseNone : UrlParseOracle := fun _ => none

/-- Parse oracle on which exactly `http://localhost/` parses, with host
`localhost`. -/
def parseLocalhost : UrlParseOracle := fun v =>
  if v = "http://localhost/" then some (some "localhost") else none

/-- Parse oracle on which exactly `http://a.com/` parses, with host
`a.com`. -/
def parseACom : UrlParseOracle := fun v =>
  if v = "http://a.com/" then some (some "a.com") else none

/-- Parse oracle on which exactly `mailto:a.b` parses, with no host. -/
def parseMailto : UrlParseOracle := fun v =>
  if v = "mailto:a.b" then some none else none

/-- Analysis with the given primary host and stored classification, no
query parameters and no path segments. -/
def hostAnalysis (host : String) (tld : TldComponents) : UrlAnalysis :=
  ⟨host, ⟨"https", "", none, some host, none, "/", none, none, [], []⟩, tld⟩

/-- Analysis with no primary host and one query parameter. -/
def queryAnalysis (key value : String) : UrlAnalysis :=
  ⟨value, ⟨"https", "", none, none, none, "/", none, none, [(key, value)], []⟩,
    ⟨none, none, none⟩⟩

/-- The batch of the spec's ordering example. -/
def zebraBatch : List UrlAnalysis :=
  [hostAnalysis "zebra.com" ⟨some "zebra", none, some "com"⟩,
   hostAnalysis "apple.com" ⟨some "apple", none, some "com"⟩,
   hostAnalysis "microsoft.com" ⟨some "microsoft", none, some "com"⟩]

/-! The claims. -/

/-- C1: for every batch and every mode the harvester's `format` returns
`Ok`; fragments of earlier analyses never prevent harvesting from later
analyses, and no fragment of an analysis prevents that same analysis's
other fragments from contributing (every contribution of an analysis
reaches the collected set). -/
theorem c1_format_never_fails (table : PublicSuffixTable) (parse : UrlParseOracle)
    (f : WhoisFormatter) (pre post : List UrlAnalysis) :
    (∃ s, f.format table parse (pre ++ post) = Except.ok s)
    ∧ (∀ x, x ∈ collectDomains table parse f.include_subdomains post →
        x ∈ collectDomains table parse f.include_subdomains (pre ++ post))
    ∧ (∀ (a : UrlAnalysis) x, x ∈ analysisContrib table parse f.include_subdomains a →
        x ∈ collectDomains table parse f.include_subdomains [a]) := by
  refine ⟨⟨_, rfl⟩, ?_, ?_⟩
  · intro x hx
    rw [mem_collectDomains] at hx ⊢
    rw [batchContribs_append]
    exact List.mem_append_right _ hx
  · intro a x hx
    rw [mem_collectDomains]
    show x ∈ analysisContrib table parse f.include_subdomains a ++ []
    rw [List.append_nil]
    exact hx

/-- Closed witness for C1 at a concrete batch whose first analysis carries
an encoded, malformed query value. -/
theorem c1_format_never_fails_witness :
    (∃ s, WhoisFormatter.new.format tableCom parseNone
        ([queryAnalysis "u" "%41bc.com"]
          ++ [hostAnalysis "apple.com" ⟨some "apple", none, some "com"⟩])
        = Except.ok s)
    ∧ "apple.com" ∈ collectDomains tableCom parseNone false
        ([queryAnalysis "u" "%41bc.com"]
          ++ [hostAnalysis "apple.com" ⟨some "apple", none, some "com"⟩]) := by
  have h := c1_format_never_fails tableCom parseNone WhoisFormatter.new
    [queryAnalysis "u" "%41bc.com"]
    [hostAnalysis "apple.com" ⟨some "apple", none, some "com"⟩]
  exact ⟨h.1, h.2.1 "apple.com" (by decide)⟩

/-- C2 counterexample: the embedded host `localhost` classifies
successfully but without a registrable domain, and the harvester inserts
nothing for it — the claimed fallback to the raw embedded host does not
happen (the output of the whole format call is empty). -/
theorem c2_embedded_url_counterexample :
    (TldAnalyzer.new tableCom).extract "localhost" = Except.ok ⟨none, none, none⟩
    ∧ WhoisFormatter.new.format tableCom parseLocalhost
        [queryAnalysis "u" "http://localhost/"] = Except.ok ""
    ∧ "localhost" ∉ collectDomains tableCom parseLocalhost false
        [queryAnalysis "u" "http://localhost/"] := by
  refine ⟨rfl, rfl, ?_⟩
  decide

/-- C2 (amended): for every query value that parses as a standalone URL
with a host, subdomain mode inserts the raw embedded host verbatim;
non-subdomain mode reclassifies the embedded host and inserts
`domain + "." + suffix` when both are present, and inserts nothing
otherwise (the raw-host fallback of the code is reachable only on a
classifier error, which the classifier never produces). -/
theorem c2_embedded_url_amended (table : PublicSuffixTable) (parse : UrlParseOracle)
    (incl : Bool) (d : List String) (v h : String) (hp : parse v = some (some h)) :
    harvestQueryValue table parse incl d v =
      if incl then insertDomain d h
      else
        match (classify table h).domain, (classify table h).suffix with
        | some domain, some suffix => insertDomain d (domain ++ "." ++ suffix)
        | _, _ => d := by
  unfold harvestQueryValue
  rw [hp]
  cases incl with
  | true => rfl
  | false =>
    dsimp only
    rw [extract_eq_ok table h]

/-- Closed witness for the amended C2. -/
theorem c2_embedded_url_amended_witness :
    harvestQueryValue tableCom parseACom false [] "http://a.com/" = ["a.com"] := by
  have h := c2_embedded_url_amended tableCom parseACom false [] "http://a.com/" "a.com" rfl
  exact h.trans (by decide)

/-- C3: the classifier wrapper never fails — it returns `Ok` on every host
— and a host none of whose trailing label sequences is registered in the
table classifies to the all-absent result. -/
theorem c3_extract_total (table : PublicSuffixTable) (host : String) :
    (∃ tc, (TldAnalyzer.new table).extract host = Except.ok tc)
    ∧ ((∀ i, i < (splitDots host).length → (splitDots host).drop i ∉ table) →
        (TldAnalyzer.new table).extract host = Except.ok ⟨none, none, none⟩) := by
  refine ⟨⟨classify table host, extract_eq_ok table host⟩, ?_⟩
  intro H
  have hfs : findSuffixLen table (splitDots host) (splitDots host).length = none :=
    findSuffixLen_eq_none table (splitDots host) H _ le_rfl
  have hraw := rawExtract_of_fsl_none table host hfs
  rw [extract_eq_ok, classify_def, hraw]
  rfl

/-- Closed witness for C3 on the suffixless host `localhost`. -/
theorem c3_extract_total_witness :
    (∀ i, i < (splitDots "localhost").length → (splitDots "localhost").drop i ∉ tableCom)
    ∧ (TldAnalyzer.new tableCom).extract "localhost" = Except.ok ⟨none, none, none⟩ :=
  ⟨by decide, (c3_extract_total tableCom "localhost").2 (by decide)⟩

/-- C4: a query value that does not parse as a URL is a bare-hostname
candidate exactly when it contains a `.` and does not start with `%`; in
subdomain mode the candidate inserts the dotted join of
subdomain/domain/suffix when all three are present, else `domain.suffix`
when both are present, else nothing; in non-subdomain mode it inserts
`domain.suffix` only when both are present; a value starting with `%`, or
without a `.`, contributes nothing. -/
theorem c4_bare_hostname (table : PublicSuffixTable) (parse : UrlParseOracle)
    (incl : Bool) (d : List String) (v : String) (hp : parse v = none) :
    (startsWithChar v '%' = true → harvestQueryValue table parse incl d v = d)
    ∧ (containsChar v '.' = false → harvestQueryValue table parse incl d v = d)
    ∧ (containsChar v '.' = true → startsWithChar v '%' = false →
        harvestQueryValue table parse incl d v =
          if incl then
            match (classify table v).subdomain, (classify table v).domain,
                (classify table v).suffix with
            | some subdomain, some domain, some suffix =>
              insertDomain d (subdomain ++ "." ++ domain ++ "." ++ suffix)
            | none, some domain, some suffix => insertDomain d (domain ++ "." ++ suffix)
            | _, _, _ => d
          else
            match (classify table v).domain, (classify table v).suffix with
            | some domain, some suffix => insertDomain d (domain ++ "." ++ suffix)
            | _, _ => d) := by
  unfold harvestQueryValue
  rw [hp]
  dsimp only
  refine ⟨?_, ?_, ?_⟩
  · intro hpc
    have hcond : ¬ ((containsChar v '.' && !startsWithChar v '%') = true) := by
      rw [hpc]; simp
    rw [if_neg hcond]
  · intro hdot
    have hcond : ¬ ((containsChar v '.' && !startsWithChar v '%') = true) := by
      rw [hdot]; simp
    rw [if_neg hcond]
  · intro hdot hpc
    have hcond : (containsChar v '.' && !startsWithChar v '%') = true := by
      rw [hdot, hpc]; rfl
    rw [if_pos hcond, extract_eq_ok table v]

/-- Closed witness for C4 on the candidate `x.a.com` in subdomain mode. -/
theorem c4_bare_hostname_witness :
    harvestQueryValue tableCom parseNone true [] "x.a.com" = ["x.a.com"] := by
  have h := (c4_bare_hostname tableCom parseNone true [] "x.a.com" rfl).2.2 rfl rfl
  exact h.trans (by decide)

/-- C5: on an analysis with a primary host, subdomain mode inserts the raw
host verbatim; non-subdomain mode inserts `domain + "." + suffix` from the
analysis's stored `tld_components` when both are present and otherwise
falls back to inserting the raw host verbatim. -/
theorem c5_primary_host (incl : Bool) (a : UrlAnalysis) (d : List String) (h : String)
    (hh : a.url_components.host = some h) :
    harvestHost incl a d =
      if incl then insertDomain d h
      else
        match a.tld_components.domain, a.tld_components.suffix with
        | some domain, some suffix => insertDomain d (domain ++ "." ++ suffix)
        | _, _ => insertDomain d h := by
  unfold harvestHost
  rw [hh]

/-- Closed witness for C5: classification failed, so the raw host is kept. -/
theorem c5_primary_host_witness :
    harvestHost false (hostAnalysis "intranet.local" ⟨none, none, none⟩) []
      = ["intranet.local"] := by
  have h := c5_primary_host false (hostAnalysis "intranet.local" ⟨none, none, none⟩)
    [] "intranet.local" rfl
  exact h.trans (by decide)

/-- C6: a path segment harvests only when it contains a `.` and does not
start with `%`; subdomain mode then inserts the raw segment verbatim, and
non-subdomain mode classifies the segment and inserts
`domain + "." + suffix` only when both are present, otherwise nothing. -/
theorem c6_path_segments (table : PublicSuffixTable) (incl : Bool) (d : List String)
    (seg : String) :
    (containsChar seg '.' = false → harvestSegment table incl d seg = d)
    ∧ (startsWithChar seg '%' = true → harvestSegment table incl d seg = d)
    ∧ (containsChar seg '.' = true → startsWithChar seg '%' = false →
        harvestSegment table incl d seg =
          if incl then insertDomain d seg
          else
            match (classify table seg).domain, (classify table seg).suffix with
            | some domain, some suffix => insertDomain d (domain ++ "." ++ suffix)
            | _, _ => d) := by
  unfold harvestSegment
  refine ⟨?_, ?_, ?_⟩
  · intro hdot
    have hcond : ¬ ((containsChar seg '.' && !startsWithChar seg '%') = true) := by
      rw [hdot]; simp
    rw [if_neg hcond]
  · intro hpc
    have hcond : ¬ ((containsChar seg '.' && !startsWithChar seg '%') = true) := by
      rw [hpc]; simp
    rw [if_neg hcond]
  · intro hdot hpc
    have hcond : (containsChar seg '.' && !startsWithChar seg '%') = true := by
      rw [hdot, hpc]; rfl
    rw [if_pos hcond, extract_eq_ok table seg]

/-- Closed witness for C6 on the segment `github.com` in non-subdomain
mode. -/
theorem c6_path_segments_witness :
    harvestSegment tableCom false [] "github.com" = ["github.com"] := by
  have h := (c6_path_segments tableCom false [] "github.com").2.2 rfl rfl
  exact h.trans (by decide)

/-- C7: the output of `format` is the collected set arranged in ascending
lexicographic (codepoint) order and joined with `\n` with no trailing
separator; on the batch with domains zebra.com, apple.com, microsoft.com
the lines appear as apple.com, microsoft.com, zebra.com. -/
theorem c7_sorted_output :
    (∀ (table : PublicSuffixTable) (parse : UrlParseOracle) (f : WhoisFormatter)
        (analyses : List UrlAnalysis),
      ∃ l, List.Sorted (· ≤ ·) l
        ∧ l.Perm (collectDomains table parse f.include_subdomains analyses)
        ∧ f.format table parse analyses = Except.ok (joinWith "\n" l))
    ∧ WhoisFormatter.new.format tableCom parseNone zebraBatch
        = Except.ok "apple.com\nmicrosoft.com\nzebra.com" := by
  constructor
  · intro table parse f analyses
    exact ⟨sortDomains (collectDomains table parse f.include_subdomains analyses),
      sortDomains_sorted _, sortDomains_perm _, rfl⟩
  · rfl

/-- C8: harvesting the same analysis twice yields exactly the output of
harvesting it once; no output has duplicate lines; set membership is exact
string equality, so hosts differing only in case or a trailing dot are
kept as distinct entries. -/
theorem c8_idempotent :
    (∀ (table : PublicSuffixTable) (parse : UrlParseOracle) (f : WhoisFormatter)
        (a : UrlAnalysis),
      f.format table parse [a, a] = f.format table parse [a])
    ∧ (∀ (table : PublicSuffixTable) (parse : UrlParseOracle) (f : WhoisFormatter)
        (analyses : List UrlAnalysis),
      ∃ l, l.Nodup ∧ f.format table parse analyses = Except.ok (joinWith "\n" l))
    ∧ WhoisFormatter.new.with_subdomains.format tableCom parseNone
        [hostAnalysis "Example.com" ⟨none, none, none⟩,
         hostAnalysis "example.com." ⟨none, none, none⟩]
        = Except.ok "Example.com\nexample.com." := by
  refine ⟨?_, ?_, rfl⟩
  · intro table parse f a
    have hc : collectDomains table parse f.include_subdomains [a, a]
        = collectDomains table parse f.include_subdomains [a] := by
      rw [collectDomains_eq, collectDomains_eq]
      have h2 : batchContribs table parse f.include_subdomains [a, a]
          = analysisContrib table parse f.include_subdomains a
            ++ analysisContrib table parse f.include_subdomains a := by
        show analysisContrib table parse f.include_subdomains a
          ++ (analysisContrib table parse f.include_subdomains a ++ []) = _
        rw [List.append_nil]
      have h1 : batchContribs table parse f.include_subdomains [a]
          = analysisContrib table parse f.include_subdomains a := by
        show analysisContrib table parse f.include_subdomains a ++ [] = _
        rw [List.append_nil]
      rw [h2, h1, insertAll_append]
      apply insertAll_eq_self
      intro x hx
      rw [mem_insertAll]
      exact Or.inr hx
    unfold WhoisFormatter.format
    rw [hc]
  · intro table parse f analyses
    refine ⟨sortDomains (collectDomains table parse f.include_subdomains analyses), ?_, rfl⟩
    exact (List.Perm.nodup_iff (sortDomains_perm _)).2
      (nodup_collectDomains table parse f.include_subdomains analyses)

/-- C9: every classification the classifier produces satisfies the data
model invariant — an absent suffix forces an absent domain — and no field
is ever the empty string (empty results are normalized to absent). -/
theorem c9_invariant (table : PublicSuffixTable) (host : String) (hw : WFTable table) :
    ((classify table host).suffix = none → (classify table host).domain = none)
    ∧ (classify table host).domain ≠ some ""
    ∧ (classify table host).subdomain ≠ some ""
    ∧ (classify table host).suffix ≠ some "" := by
  refine ⟨?_, ?_, ?_, ?_⟩
  · intro hsuf
    cases hfs : findSuffixLen table (splitDots host) (splitDots host).length with
    | none =>
      rw [classify_def, rawExtract_of_fsl_none table host hfs]
      rfl
    | some k =>
      by_cases hk : k < (splitDots host).length
      · exfalso
        have hsfx := rawExtract_suffix_of_fsl table host k hfs hk
        rw [classify_def] at hsuf
        dsimp only at hsuf
        rw [hsfx] at hsuf
        have hmem := findSuffixLen_mem table (splitDots host) _ k hfs
        have hne := joinWith_ne_empty _ ((hw _ hmem).1) ((hw _ hmem).2)
        simp only [Option.filter] at hsuf
        by_cases hb : (!(joinWith "." ((splitDots host).drop
            ((splitDots host).length - k))).isEmpty) = true
        · rw [if_pos hb] at hsuf
          exact Option.noConfusion hsuf
        · have hbe : (joinWith "." ((splitDots host).drop
              ((splitDots host).length - k))).isEmpty = true := by
            cases hval : (joinWith "." ((splitDots host).drop
                ((splitDots host).length - k))).isEmpty with
            | true => rfl
            | false => exact absurd (by rw [hval]; rfl) hb
          exact hne ((String.isEmpty_iff _).1 hbe)
      · rw [classify_def, rawExtract_of_fsl_whole table host k hfs hk]
        rfl
  · rw [classify_def]
    exact filter_nonempty_ne_some_empty _
  · rw [classify_def]
    exact filter_nonempty_ne_some_empty _
  · rw [classify_def]
    exact filter_nonempty_ne_some_empty _

/-- Closed witness for C9 on the well-formed table registering `com`. -/
theorem c9_invariant_witness :
    WFTable tableCom
    ∧ ((classify tableCom "example.com").suffix = none →
        (classify tableCom "example.com").domain = none)
    ∧ (classify tableCom "example.com").domain ≠ some "" := by
  have h := c9_invariant tableCom "example.com" (by decide)
  exact ⟨by decide, h.1, h.2.1⟩

/-- C10: a query value that parses as a URL without a host contributes
nothing, and the bare-hostname fallback is never attempted on it. -/
theorem c10_parsed_without_host (table : PublicSuffixTable) (parse : UrlParseOracle)
    (incl : Bool) (d : List String) (v : String) (hp : parse v = some none) :
    harvestQueryValue table parse incl d v = d := by
  unfold harvestQueryValue
  rw [hp]

/-- Closed witness for C10 on `mailto:a.b`, which contains a `.` and does
not start with `%` yet contributes nothing. -/
theorem c10_parsed_without_host_witness :
    harvestQueryValue tableCom parseMailto false [] "mailto:a.b" = [] :=
  c10_parsed_without_host tableCom parseMailto false [] "mailto:a.b" rfl

end Whois
